import Mathlib

/-!
# Bit-banged two-wire bus master (`src/microtune/i2c.cc`)

A shallow embedding of the `i2c` class of `src/microtune/i2c.cc`.  The object's
only field is the pointer `d_io` to the signal-primitive provider; the provider
is modelled by the record `Bus` threaded through every member function, and the
device on the other end of the data line by a `Device`, the sequence of levels
that successive `get_sda` samples return.
-/

namespace I2c

/-! ## Data model -/

/-- One call on the signal-primitive provider `d_io`. -/
inductive Call where
  | lock
  | unlock
  | set_scl (level : Bool)
  | set_sda (level : Bool)
  | get_sda
  deriving DecidableEq, Repr

/-- The provider as seen by the bus master: the levels the master currently
drives on the clock and data lines, the number of `get_sda` samples taken so
far, and the log of every provider call in the order it was made. -/
structure Bus where
  scl : Bool
  sda : Bool
  reads : Nat
  trace : List Call
  deriving DecidableEq, Repr

/-- The addressed device: `dev k` is the level the data line shows at the
`k`-th `get_sda` sample (`true` = high, `false` = pulled low).  Every
behaviour of the sampled line, adaptive or not, is such a sequence. -/
abbrev Device := Nat → Bool

/-! ## Signal primitives

`i2c.h` and the `i2cio` provider are not part of the sources; the five
primitives are modelled as the spec describes them. -/

/-- Modelled from the spec: `d_io->lock ()` of the absent `i2cio` provider,
"acquire exclusive bus ownership"; it touches neither line. -/
def lock (s : Bus) : Bus :=
  { s with trace := s.trace ++ [Call.lock] }

/-- Modelled from the spec: `d_io->unlock ()` of the absent `i2cio` provider,
"release exclusive bus ownership"; it touches neither line. -/
def unlock (s : Bus) : Bus :=
  { s with trace := s.trace ++ [Call.unlock] }

/-- Modelled from the spec: `set_scl (level)` of the absent `i2c.h`, "set clock
line high/low". -/
def set_scl (level : Bool) (s : Bus) : Bus :=
  { s with scl := level, trace := s.trace ++ [Call.set_scl level] }

/-- Modelled from the spec: `set_sda (level)` of the absent `i2c.h`, "set data
line high/low". -/
def set_sda (level : Bool) (s : Bus) : Bus :=
  { s with sda := level, trace := s.trace ++ [Call.set_sda level] }

/-- Modelled from the spec: `get_sda ()` of the absent `i2c.h`, "read data line
level"; the level comes from the device and the master's driven levels are
unchanged. -/
def get_sda (dev : Device) (s : Bus) : Bool × Bus :=
  (dev s.reads, { s with reads := s.reads + 1, trace := s.trace ++ [Call.get_sda] })

/-! ## The member functions of `i2c` -/

/-- Source `i2c::start` (i2c.cc:48-55). -/
def start (s : Bus) : Bus :=
  let s := set_sda true s
  let s := set_scl true s
  let s := set_sda false s
  set_scl false s

/-- Source `i2c::stop` (i2c.cc:62-69). -/
def stop (s : Bus) : Bus :=
  let s := set_scl false s
  let s := set_sda false s
  let s := set_scl true s
  set_sda true s

/-- Source `i2c::write_bit` (i2c.cc:76-82). -/
def write_bit (bit : Bool) (s : Bus) : Bus :=
  let s := set_sda bit s
  let s := set_scl true s
  set_scl false s

/-- The `for (i = 0; i < 8; i++)` loop of `i2c::write_byte` (i2c.cc:95-98),
with `k` iterations left: `write_bit (t & 0x80); t <<= 1;` where `t` is a
`char`, kept as its 8-bit pattern.  Returns the final `t` and the bus. -/
def write_byte_loop : Nat → Nat → Bus → Nat × Bus
  | 0, t, s => (t, s)
  | k + 1, t, s => write_byte_loop k ((t <<< 1) % 256) (write_bit (t &&& 0x80 != 0) s)

/-- Source `i2c::write_byte` (i2c.cc:89-108). -/
def write_byte (dev : Device) (t : Nat) (s : Bus) : Bool × Bus :=
  let s := (write_byte_loop 8 t s).2
  -- clock #9. This is the ACK bit.
  let s := set_sda true s
  let s := set_scl true s
  let r := get_sda dev s
  let ack_bit := r.1
  let s := set_scl false r.2
  (ack_bit == false, s)

/-- Conversion of an `int` to `char`: the low 8 bits, as a bit pattern. -/
def char_of_int (x : Int) : Nat :=
  (x % 256).toNat

/-- The `for (int i = 0; i < nbytes; i++) ok &= write_byte (buf[i]);` loop of
`i2c::write` (i2c.cc:124-125), with `k` iterations left and loop variable `i`.
`buf i` is the `unsigned char` at `buf[i]`. -/
def write_loop (dev : Device) (buf : Nat → Nat) : Nat → Nat → Bool → Bus → Bool × Bus
  | 0, _, ok, s => (ok, s)
  | k + 1, i, ok, s =>
    let r := write_byte dev (buf i % 256) s
    write_loop dev buf k (i + 1) (ok && r.1) r.2

/-- Source `i2c::write` (i2c.cc:115-130).  `(addr << 1) | 0` is `addr * 2`; the
loop body runs `nbytes` times when `nbytes` is positive and not at all
otherwise. -/
def write (dev : Device) (addr : Int) (buf : Nat → Nat) (nbytes : Int) (s : Bus) :
    Bool × Bus :=
  let s := lock s
  let s := start s
  let r := write_byte dev (char_of_int (addr * 2)) s
  let r := write_loop dev buf nbytes.toNat 0 r.1 r.2
  let s := stop r.2
  let s := unlock s
  (r.1, s)

/-- Source `i2c::read` (i2c.cc:137-146): returns the count, the caller's
buffer and the bus. -/
def read (_dev : Device) (_addr : Int) (buf : Nat → Nat) (_max_bytes : Int) (s : Bus) :
    Int × (Nat → Nat) × Bus :=
  let s := lock s
  -- FIXME
  let s := unlock s
  (0, buf, s)

/-- Source constructor `i2c::i2c` (i2c.cc:33-41). -/
def i2c (s : Bus) : Bus :=
  let s := lock s
  let s := stop s  -- get bus in known state
  unlock s

/-! ## Vocabulary of the specification -/

/-- The calls a function made: what it appended to the log of the bus it was
entered with. -/
def calls_since (s0 s1 : Bus) : List Call :=
  s1.trace.drop s0.trace.length

/-- The idle line state: clock high, data high. -/
def Bus.idle (s : Bus) : Prop :=
  s.scl = true ∧ s.sda = true

instance (s : Bus) : Decidable s.idle := by
  unfold Bus.idle; infer_instance

/-- A start condition as a call sequence. -/
def start_calls : List Call :=
  [Call.set_sda true, Call.set_scl true, Call.set_sda false, Call.set_scl false]

/-- A stop condition as a call sequence. -/
def stop_calls : List Call :=
  [Call.set_scl false, Call.set_sda false, Call.set_scl true, Call.set_sda true]

/-- One data bit on the wire: drive the data line, pulse the clock. -/
def bit_calls (b : Bool) : List Call :=
  [Call.set_sda b, Call.set_scl true, Call.set_scl false]

/-- One acknowledge cycle: release the data line, raise the clock, sample,
lower the clock. -/
def ack_calls : List Call :=
  [Call.set_sda true, Call.set_scl true, Call.get_sda, Call.set_scl false]

/-- The eight bits of `v`, bit 7 first. -/
def msb_bits (v : Nat) : List Bool :=
  [v.testBit 7, v.testBit 6, v.testBit 5, v.testBit 4,
   v.testBit 3, v.testBit 2, v.testBit 1, v.testBit 0]

/-- One byte transmission on the wire: eight data bits, most significant
first, then one acknowledge cycle. -/
def byte_calls (v : Nat) : List Call :=
  (msb_bits v).flatMap bit_calls ++ ack_calls

/-- The payload bytes `buf[0], ..., buf[n-1]`. -/
def payload (buf : Nat → Nat) (n : Nat) : List Nat :=
  (List.range n).map (fun i => buf i % 256)

/-- Whether a call is one of the three line primitives. -/
def Call.is_line : Call → Bool
  | Call.set_scl _ => true
  | Call.set_sda _ => true
  | Call.get_sda => true
  | _ => false

/-- Replays a call sequence against the ownership flag `held`: `lock` needs
the bus free, `unlock` and every line primitive need it held.  Returns the
flag at the end, or `none` at the first call that breaks the discipline. -/
def lock_discipline : Bool → List Call → Option Bool
  | held, [] => some held
  | held, Call.lock :: cs => if held then none else lock_discipline true cs
  | held, Call.unlock :: cs => if held then lock_discipline false cs else none
  | held, _ :: cs => if held then lock_discipline true cs else none

/-- Acknowledge outcome of the `k`-th byte transmitted after bus state `s`:
every byte transmission samples the data line exactly once, so it is decided
by sample number `s.reads + k`, and the byte is acknowledged when that sample
is low. -/
def ack_of (dev : Device) (s : Bus) (k : Nat) : Bool :=
  dev (s.reads + k) == false

/-- The bytes `write` puts on the wire: the address byte, then the payload. -/
def sent_bytes (addr : Int) (buf : Nat → Nat) (n : Nat) : List Nat :=
  char_of_int (addr * 2) :: payload buf n

/-- The complete call sequence of a write transaction carrying `bytes`. -/
def transaction_calls (bytes : List Nat) : List Call :=
  [Call.lock] ++ start_calls ++ bytes.flatMap byte_calls ++ stop_calls ++ [Call.unlock]

/-- A call sequence is bracketed by bus ownership: it opens with `lock`, closes
with `unlock`, holds each of the two exactly once, everything strictly between
them is a line primitive, and replayed from a free bus it never uses a line
without ownership and ends with the bus free again. -/
def bracketed (cs : List Call) : Prop :=
  cs.head? = some Call.lock
    ∧ cs.getLast? = some Call.unlock
    ∧ cs.count Call.lock = 1
    ∧ cs.count Call.unlock = 1
    ∧ (∃ mid, cs = Call.lock :: (mid ++ [Call.unlock]) ∧ ∀ c ∈ mid, c.is_line = true)
    ∧ lock_discipline false cs = some false

/-- A change of level on one of the two lines, as the master drives them: the
clock going high or low, the data line falling or rising while the clock is
high (the signatures of a start and of a stop condition), or the data line
changing while the clock is low. -/
inductive Edge where
  | scl_rise
  | scl_fall
  | sda_fall_high
  | sda_rise_high
  | sda_change_low
  deriving DecidableEq, Repr

/-- The clock and data levels the master drives after a call sequence made
from the levels `scl` and `sda`. -/
def levels_after : Bool → Bool → List Call → Bool × Bool
  | scl, sda, [] => (scl, sda)
  | _, sda, Call.set_scl b :: cs => levels_after b sda cs
  | scl, _, Call.set_sda b :: cs => levels_after scl b cs
  | scl, sda, _ :: cs => levels_after scl sda cs

/-- The level changes a call sequence produces from the levels `scl` and
`sda`, in order.  A call that drives a line to the level it already has
changes nothing. -/
def edges : Bool → Bool → List Call → List Edge
  | _, _, [] => []
  | scl, sda, Call.set_scl b :: cs =>
    (if b = scl then [] else [if b then Edge.scl_rise else Edge.scl_fall]) ++ edges b sda cs
  | scl, sda, Call.set_sda b :: cs =>
    (if b = sda then []
      else if scl then [if b then Edge.sda_rise_high else Edge.sda_fall_high]
      else [Edge.sda_change_low]) ++ edges scl b cs
  | scl, sda, _ :: cs => edges scl sda cs

/-- An edge sequence in which the data line changes while the clock is high
exactly twice: it falls as the first edge and rises as the last edge; all
edges between the two are clock edges or data changes made while the clock is
low, and the clock goes high `k` times between the two. -/
def conditions_only_at_ends (es : List Edge) (k : Nat) : Prop :=
  ∃ mid, es = Edge.sda_fall_high :: (mid ++ [Edge.sda_rise_high])
    ∧ Edge.sda_fall_high ∉ mid
    ∧ Edge.sda_rise_high ∉ mid
    ∧ mid.count Edge.scl_rise = k

/-- A call sequence that, entered with the clock low and any data level, ends
with the clock low, raises the clock `k` times and never changes the data line
while the clock is high. -/
def clock_low_block (cs : List Call) (k : Nat) : Prop :=
  ∀ sda : Bool,
    (levels_after false sda cs).1 = false
      ∧ (edges false sda cs).count Edge.scl_rise = k
      ∧ Edge.sda_fall_high ∉ edges false sda cs
      ∧ Edge.sda_rise_high ∉ edges false sda cs

end I2c

/-!
# Rotator transaction (`src/prosistel/prosistel.c`)

A shallow embedding of `prosistel_transaction`.  The serial port of the
rotator is modelled by the record `Port` threaded through the function, and
the answers of the serial layer by a `Serial`.
-/

namespace Prosistel

/-- The error codes the function names.  `enum rig_errcode_e` is declared in
`hamlib/rig.h`, which is not part of the sources, so the values are taken as
parameters.  `RIG_REJECTED` is the name the doc comment of the function uses
for the code of a negative acknowledge. -/
structure ErrCodes where
  RIG_OK : Int
  RIG_EPROTO : Int
  RIG_REJECTED : Int
  deriving DecidableEq, Repr

/-- Source `#define BUFSZ 64` (prosistel.c:40). -/
def BUFSZ : Nat := 64

/-- The value of the pointer `data`: `NULL`, the buffer of the caller, or the
local array `replybuf`. -/
inductive Buffer where
  | null
  | caller
  | replybuf
  deriving DecidableEq, Repr

/-- One call on the serial layer, with the arguments that vary. -/
inductive PortCall where
  | serial_flush
  | write_block (cmd : List Char) (len : Nat)
  | read_string (buf : Buffer) (rxmax : Nat)
  deriving DecidableEq, Repr

/-- The serial port `rs->rotport` as seen by the function: how many
`write_block` and `read_string` calls were made on it so far, and the log of
all calls in order. -/
structure Port where
  writes : Nat
  reads : Nat
  trace : List PortCall
  deriving DecidableEq, Repr

/-- The behaviour of the serial layer (`serial.c`, not part of the sources),
taken as a parameter: `write_block k` is the value the `k`-th `write_block`
call returns, `read_string k` the value the `k`-th `read_string` call returns
together with the contents it leaves in the buffer it was given. -/
structure Serial where
  write_block : Nat → Int
  read_string : Nat → Int × List Char

/-- The call `serial_flush (&rs->rotport)`. -/
def serial_flush (p : Port) : Port :=
  { p with trace := p.trace ++ [PortCall.serial_flush] }

/-- The call `write_block (&rs->rotport, cmdstr, strlen (cmdstr))`. -/
def write_block (io : Serial) (cmd : List Char) (len : Nat) (p : Port) : Int × Port :=
  (io.write_block p.writes,
   { p with writes := p.writes + 1, trace := p.trace ++ [PortCall.write_block cmd len] })

/-- The call `read_string (&rs->rotport, data, data_len, REPLY_EOM, ...)`:
returns the value of the call, the buffer contents after it, and the port. -/
def read_string (io : Serial) (data : Buffer) (data_len : Nat) (p : Port) :
    Int × List Char × Port :=
  ((io.read_string p.reads).1, (io.read_string p.reads).2,
   { p with reads := p.reads + 1, trace := p.trace ++ [PortCall.read_string data data_len] })

/-- The body of `prosistel_transaction` from the label `transaction_write`
(prosistel.c:68-114), with the local variables `retry_read`, `data` and
`data_len` as arguments; `retry` is `rot->state.rotport.retry`.  Each `goto
transaction_write` spends one unit of `fuel`; `none` means the fuel ran out.
The result is the returned `retval` and the port. -/
def transaction_write (c : ErrCodes) (io : Serial) (retry : Int) (cmdstr : Option (List Char)) :
    Nat → Int → Buffer → Nat → Port → Option (Int × Port)
  | 0, _, _, _, _ => none
  | fuel + 1, retry_read, data, data_len, p =>
    let p := serial_flush p
    -- Always read the reply to know whether the cmd went OK
    let reply := fun (p : Port) =>
      let data := if data = Buffer.null then Buffer.replybuf else data
      let data_len := if data_len = 0 then BUFSZ else data_len
      -- memset (data, 0, data_len)
      let r := read_string io data data_len p
      let retval := r.1
      if retval < 0 then
        if retry_read < retry then
          transaction_write c io retry cmdstr fuel (retry_read + 1) data data_len r.2.2
        else
          some (retval, r.2.2)
      else if r.2.1.headD (Char.ofNat 0) = '?' then
        -- Invalid command
        some (-c.RIG_EPROTO, r.2.2)
      else
        some (c.RIG_OK, r.2.2)
    match cmdstr with
    | some cmd =>
      let w := write_block io cmd cmd.length p
      if w.1 ≠ c.RIG_OK then some (w.1, w.2) else reply w.2
    | none => reply p

/-- Source `prosistel_transaction` (prosistel.c:58-115): `retry_read` starts
at 0 and control enters at `transaction_write`. -/
def prosistel_transaction (c : ErrCodes) (io : Serial) (retry : Int)
    (cmdstr : Option (List Char)) (data : Buffer) (data_len : Nat) (fuel : Nat) (p : Port) :
    Option (Int × Port) :=
  transaction_write c io retry cmdstr fuel 0 data data_len p

/-! ## Vocabulary for the transaction -/

/-- The calls a transaction made: what it appended to the log of the port. -/
def port_calls_since (p0 p1 : Port) : List PortCall :=
  p1.trace.drop p0.trace.length

/-- The buffer the reply is read into: `replybuf` when the caller passes
`NULL`. -/
def reply_buffer (data : Buffer) : Buffer :=
  if data = Buffer.null then Buffer.replybuf else data

/-- The size given to `read_string`: `BUFSZ` when the caller passes 0. -/
def reply_size (data_len : Nat) : Nat :=
  if data_len = 0 then BUFSZ else data_len

/-- The `write_block` call of one attempt: none when `cmdstr` is `NULL`. -/
def send_calls (cmdstr : Option (List Char)) : List PortCall :=
  match cmdstr with
  | some cmd => [PortCall.write_block cmd cmd.length]
  | none => []

/-- One complete attempt: flush, send the command, read the reply. -/
def attempt_calls (cmdstr : Option (List Char)) (buf : Buffer) (rxmax : Nat) : List PortCall :=
  [PortCall.serial_flush] ++ send_calls cmdstr ++ [PortCall.read_string buf rxmax]

/-- The call sequence of a transaction with `nr` reads and `nw` writes: `nr`
complete attempts, then, when there is one more write than reads, an attempt
that ends at its write. -/
def attempts_calls (cmdstr : Option (List Char)) (buf : Buffer) (rxmax : Nat) (nr nw : Nat) :
    List PortCall :=
  (List.replicate nr (attempt_calls cmdstr buf rxmax)).flatten
    ++ (if nr < nw then [PortCall.serial_flush] ++ send_calls cmdstr else [])

end Prosistel

namespace I2c

/-! ## Auxiliary lemmas -/

theorem and_0x80 (t : Nat) : (t &&& 0x80 != 0) = t.testBit 7 := by
  have h := Nat.and_two_pow t 7
  norm_num at h
  rw [h]
  cases t.testBit 7 <;> simp

theorem shl_testBit (t i : Nat) : ((t <<< 1) % 256).testBit (i + 1) = (decide (i + 1 < 8) && t.testBit i) := by
  have : (256 : Nat) = 2 ^ 8 := by norm_num
  rw [this, Nat.testBit_mod_two_pow, Nat.shiftLeft_eq, pow_one, Nat.testBit_succ]
  simp

theorem write_bit_eq (b : Bool) (s : Bus) :
    write_bit b s = { scl := false, sda := b, reads := s.reads, trace := s.trace ++ bit_calls b } := by
  simp [write_bit, set_sda, set_scl, bit_calls]

theorem write_byte_loop_eight (t : Nat) (s : Bus) :
    (write_byte_loop 8 t s).2 =
      { scl := false, sda := t.testBit 0, reads := s.reads,
        trace := s.trace ++ (msb_bits t).flatMap bit_calls } := by
  simp only [write_byte_loop, write_bit_eq, and_0x80, shl_testBit, msb_bits]
  simp [bit_calls]

theorem write_byte_eq (dev : Device) (t : Nat) (s : Bus) :
    write_byte dev t s =
      (dev s.reads == false,
       { scl := false, sda := true, reads := s.reads + 1,
         trace := s.trace ++ byte_calls t }) := by
  simp [write_byte, write_byte_loop_eight, set_sda, set_scl, get_sda, byte_calls, ack_calls]

theorem start_eq (s : Bus) :
    start s = { scl := false, sda := false, reads := s.reads, trace := s.trace ++ start_calls } := by
  simp [start, set_sda, set_scl, start_calls]

theorem stop_eq (s : Bus) :
    stop s = { scl := true, sda := true, reads := s.reads, trace := s.trace ++ stop_calls } := by
  simp [stop, set_sda, set_scl, stop_calls]

theorem write_loop_result (dev : Device) (buf : Nat → Nat) (k : Nat) :
    ∀ (i : Nat) (ok : Bool) (s : Bus),
      (write_loop dev buf k i ok s).1 =
        (ok && (List.range k).all (fun j => dev (s.reads + j) == false)) := by
  induction k with
  | zero => intro i ok s; simp [write_loop]
  | succ k ih =>
    intro i ok s
    simp only [write_loop, write_byte_eq, ih, List.range_succ_eq_map, List.all_cons, List.all_map]
    simp [Function.comp_def, Nat.add_assoc, Nat.add_comm 1, Bool.and_assoc]

theorem write_loop_reads (dev : Device) (buf : Nat → Nat) (k : Nat) :
    ∀ (i : Nat) (ok : Bool) (s : Bus),
      (write_loop dev buf k i ok s).2.reads = s.reads + k := by
  induction k with
  | zero => intro i ok s; simp [write_loop]
  | succ k ih =>
    intro i ok s
    simp only [write_loop, write_byte_eq, ih]
    omega

theorem write_loop_trace (dev : Device) (buf : Nat → Nat) (k : Nat) :
    ∀ (i : Nat) (ok : Bool) (s : Bus),
      (write_loop dev buf k i ok s).2.trace =
        s.trace ++ ((List.range k).map (fun j => buf (i + j) % 256)).flatMap byte_calls := by
  induction k with
  | zero => intro i ok s; simp [write_loop]
  | succ k ih =>
    intro i ok s
    simp only [write_loop, write_byte_eq, ih, List.range_succ_eq_map, List.map_cons, List.map_map,
      List.flatMap_cons, List.append_assoc]
    simp [Function.comp_def, Nat.add_assoc, Nat.add_comm 1]

theorem calls_since_of_trace {s0 s1 : Bus} {c : List Call} (h : s1.trace = s0.trace ++ c) :
    calls_since s0 s1 = c := by
  simp [calls_since, h]

theorem write_eq (dev : Device) (addr : Int) (buf : Nat → Nat) (nbytes : Int) (s : Bus) :
    write dev addr buf nbytes s =
      ((List.range (1 + nbytes.toNat)).all (fun k => dev (s.reads + k) == false),
       { scl := true, sda := true, reads := s.reads + (1 + nbytes.toNat),
         trace := s.trace ++ ([Call.lock] ++ start_calls
           ++ (char_of_int (addr * 2) :: payload buf nbytes.toNat).flatMap byte_calls
           ++ stop_calls ++ [Call.unlock]) }) := by
  simp only [write, lock, unlock, start_eq, stop_eq, write_byte_eq, write_loop_result,
    write_loop_reads, write_loop_trace, payload]
  refine Prod.ext ?_ ?_
  · simp only [Nat.add_comm 1, List.range_succ_eq_map, List.all_cons, List.all_map]
    simp [Function.comp_def, Nat.add_assoc, Nat.add_comm 1]
  · simp [Nat.add_assoc]

theorem lock_discipline_lines (mid : List Call) (h : ∀ c ∈ mid, c.is_line = true) :
    lock_discipline true (mid ++ [Call.unlock]) = some false := by
  induction mid with
  | nil => simp [lock_discipline]
  | cons c cs ih =>
    have hc : c.is_line = true := h c (List.mem_cons_self _ _)
    have hcs := ih (fun x hx => h x (List.mem_cons_of_mem _ hx))
    cases c <;> simp_all [lock_discipline, Call.is_line]

theorem count_lock_lines (mid : List Call) (h : ∀ c ∈ mid, c.is_line = true) :
    mid.count Call.lock = 0 ∧ mid.count Call.unlock = 0 := by
  constructor <;>
  · apply List.count_eq_zero.mpr
    intro hm
    have := h _ hm
    simp [Call.is_line] at this

theorem bracketed_of_lines (mid : List Call) (h : ∀ c ∈ mid, c.is_line = true) :
    bracketed (Call.lock :: (mid ++ [Call.unlock])) := by
  obtain ⟨h1, h2⟩ := count_lock_lines mid h
  refine ⟨by simp, ?_, ?_, ?_, ⟨mid, rfl, h⟩, ?_⟩
  · rw [← List.cons_append, List.getLast?_append]
    simp
  · simp [List.count_cons, List.count_append, h1]
  · simp [List.count_cons, List.count_append, h2]
  · simp [lock_discipline, lock_discipline_lines mid h]

theorem is_line_start_calls : ∀ c ∈ start_calls, c.is_line = true := by
  decide

theorem is_line_stop_calls : ∀ c ∈ stop_calls, c.is_line = true := by
  decide

theorem is_line_byte_calls (v : Nat) : ∀ c ∈ byte_calls v, c.is_line = true := by
  intro c hc
  simp only [byte_calls, List.mem_append, List.mem_flatMap, bit_calls, ack_calls] at hc
  rcases hc with ⟨b, -, hb⟩ | hb
  · simp at hb
    rcases hb with rfl | rfl | rfl <;> rfl
  · simp at hb
    rcases hb with rfl | rfl | rfl | rfl <;> rfl

theorem levels_after_append (a b : List Call) :
    ∀ scl sda, levels_after scl sda (a ++ b) =
      levels_after (levels_after scl sda a).1 (levels_after scl sda a).2 b := by
  induction a with
  | nil => intro scl sda; rfl
  | cons x xs ih => intro scl sda; cases x <;> simp [levels_after, ih]

theorem edges_append (a b : List Call) :
    ∀ scl sda, edges scl sda (a ++ b) =
      edges scl sda a ++ edges (levels_after scl sda a).1 (levels_after scl sda a).2 b := by
  induction a with
  | nil => intro scl sda; rfl
  | cons x xs ih => intro scl sda; cases x <;> simp [levels_after, edges, ih]

theorem clock_low_block_nil : clock_low_block [] 0 := by
  intro sda; simp [levels_after, edges]

theorem clock_low_block_append {a b : List Call} {j k : Nat} (ha : clock_low_block a j)
    (hb : clock_low_block b k) : clock_low_block (a ++ b) (j + k) := by
  intro sda
  obtain ⟨a1, a2, a3, a4⟩ := ha sda
  obtain ⟨b1, b2, b3, b4⟩ := hb (levels_after false sda a).2
  rw [levels_after_append, edges_append, a1]
  exact ⟨b1, by rw [List.count_append, a2, b2], by simp [a3, b3], by simp [a4, b4]⟩

theorem clock_low_block_bit (b : Bool) : clock_low_block (bit_calls b) 1 := by
  intro sda; cases b <;> cases sda <;> decide

theorem clock_low_block_ack : clock_low_block ack_calls 1 := by
  intro sda; cases sda <;> decide

theorem clock_low_block_flatMap {α : Type} (f : α → List Call) (k : Nat) (xs : List α)
    (h : ∀ x, clock_low_block (f x) k) : clock_low_block (xs.flatMap f) (xs.length * k) := by
  induction xs with
  | nil => simpa using clock_low_block_nil
  | cons x xs ih =>
    have := clock_low_block_append (h x) ih
    simpa [List.flatMap_cons, Nat.succ_mul, Nat.add_comm] using this

theorem clock_low_block_byte (v : Nat) : clock_low_block (byte_calls v) 9 := by
  have h := clock_low_block_append
    (clock_low_block_flatMap bit_calls 1 (msb_bits v) clock_low_block_bit) clock_low_block_ack
  simpa [byte_calls, msb_bits] using h

theorem levels_after_ack (scl sda : Bool) : levels_after scl sda ack_calls = (false, true) := by
  rfl

theorem levels_after_byte (v : Nat) (scl sda : Bool) :
    levels_after scl sda (byte_calls v) = (false, true) := by
  rw [byte_calls, levels_after_append, levels_after_ack]

theorem levels_after_bytes (bytes : List Nat) :
    ∀ sda, levels_after false sda (bytes.flatMap byte_calls) =
      (false, if bytes = [] then sda else true) := by
  induction bytes with
  | nil => intro sda; rfl
  | cons v vs ih =>
    intro sda
    rw [List.flatMap_cons, levels_after_append, levels_after_byte, ih]
    by_cases h : vs = [] <;> simp [h]

theorem write_edges (bytes : List Nat) (hne : bytes ≠ []) :
    conditions_only_at_ends (edges true true (transaction_calls bytes)) (9 * bytes.length + 1) := by
  obtain ⟨b1, b2, b3, b4⟩ := clock_low_block_flatMap byte_calls 9 bytes clock_low_block_byte false
  refine ⟨[Edge.scl_fall] ++ edges false false (bytes.flatMap byte_calls)
      ++ [Edge.sda_change_low, Edge.scl_rise], ?_, ?_, ?_, ?_⟩
  · have e : transaction_calls bytes =
        (Call.lock :: start_calls) ++ (bytes.flatMap byte_calls ++ (stop_calls ++ [Call.unlock])) := by
      simp [transaction_calls]
    rw [e, edges_append, edges_append]
    have l1 : levels_after true true (Call.lock :: start_calls) = (false, false) := rfl
    have e1 : edges true true (Call.lock :: start_calls) = [Edge.sda_fall_high, Edge.scl_fall] := rfl
    have e2 : edges false true (stop_calls ++ [Call.unlock]) =
        [Edge.sda_change_low, Edge.scl_rise, Edge.sda_rise_high] := rfl
    rw [l1, e1, levels_after_bytes]
    simp [hne, e2]
  · simp [b3]
  · simp [b4]
  · simp [List.count_append, b2, Nat.mul_comm]

/-! ## Claims about `write` and `write_byte` -/

/-- C1: for every address, buffer, length `n >= 0` and every behaviour of the
sampled data line, the calls of `write (addr, buf, n)` are exactly: `lock`, one
start condition, the transmissions of the `1 + n` bytes `addr << 1`, `buf[0]`,
..., `buf[n-1]` in that order, one stop condition, `unlock`; where a start
condition, a byte transmission and a stop condition are the calls that
`start ()`, `write_byte` and `stop ()` make from any state. -/
theorem write_transmits_address_then_payload (dev : Device) (addr : Int) (buf : Nat → Nat)
    (n : Nat) (s : Bus) :
    calls_since s (write dev addr buf (n : Int) s).2 =
        [Call.lock] ++ start_calls ++ (sent_bytes addr buf n).flatMap byte_calls
          ++ stop_calls ++ [Call.unlock]
      ∧ sent_bytes addr buf n = char_of_int (addr * 2) :: (List.range n).map (fun i => buf i % 256)
      ∧ (sent_bytes addr buf n).length = 1 + n
      ∧ (∀ s1 : Bus, calls_since s1 (start s1) = start_calls)
      ∧ (∀ (d : Device) (v : Nat) (s1 : Bus), calls_since s1 (write_byte d v s1).2 = byte_calls v)
      ∧ (∀ s1 : Bus, calls_since s1 (stop s1) = stop_calls) := by
  refine ⟨?_, rfl, ?_, ?_, ?_, ?_⟩
  · apply calls_since_of_trace
    simp [write_eq, sent_bytes]
  · simp [sent_bytes, payload, Nat.add_comm]
  · intro s1; exact calls_since_of_trace (by simp [start_eq])
  · intro d v s1; exact calls_since_of_trace (by simp [write_byte_eq])
  · intro s1; exact calls_since_of_trace (by simp [stop_eq])

/-- C2: for every address, buffer and length `n >= 0`, the result of `write` is
the logical AND of the acknowledge outcomes of all `1 + n` transmitted bytes,
the address byte included: it is true if and only if the data line was sampled
low in every one of the `1 + n` acknowledge cycles.  The outcome of byte `k` is
what `write_byte` returns for the sample it takes there. -/
theorem write_result_is_and_of_acks (dev : Device) (addr : Int) (buf : Nat → Nat)
    (n : Nat) (s : Bus) :
    (write dev addr buf (n : Int) s).1 = (List.range (1 + n)).all (ack_of dev s)
      ∧ ((write dev addr buf (n : Int) s).1 = true ↔ ∀ k, k < 1 + n → dev (s.reads + k) = false)
      ∧ (write dev addr buf (n : Int) s).2.reads = s.reads + (1 + n)
      ∧ (∀ (v : Nat) (s1 : Bus), (write_byte dev v s1).1 = ack_of dev s1 0
          ∧ (write_byte dev v s1).2.reads = s1.reads + 1) := by
  refine ⟨?_, ?_, ?_, ?_⟩
  · rw [write_eq]; rfl
  · simp [write_eq, List.all_eq_true]
  · simp [write_eq]
  · intro v s1; simp [write_byte_eq, ack_of]

/-- C3: for every byte value `v` and every sampled level, `write_byte (v)`
calls, in order: `write_bit` for bit 7 of `v`, bit 6, ..., bit 0 (eight data
bits, most significant first), then one acknowledge cycle (data set to 1,
clock set high, data line sampled once, clock set low); it returns true if and
only if the sample was low, and exits with clock = 0 and data driven to 1. -/
theorem write_byte_contract (dev : Device) (v : Nat) (s : Bus) :
    calls_since s (write_byte dev v s).2 =
        ([v.testBit 7, v.testBit 6, v.testBit 5, v.testBit 4,
          v.testBit 3, v.testBit 2, v.testBit 1, v.testBit 0].flatMap
            fun b => calls_since s (write_bit b s))
        ++ [Call.set_sda true, Call.set_scl true, Call.get_sda, Call.set_scl false]
      ∧ (∀ b : Bool, calls_since s (write_bit b s)
          = [Call.set_sda b, Call.set_scl true, Call.set_scl false])
      ∧ (write_byte dev v s).2.reads = s.reads + 1
      ∧ ((write_byte dev v s).1 = true ↔ dev s.reads = false)
      ∧ (write_byte dev v s).2.scl = false
      ∧ (write_byte dev v s).2.sda = true := by
  have hb : ∀ b : Bool, calls_since s (write_bit b s) = bit_calls b := fun b =>
    calls_since_of_trace (by simp [write_bit_eq])
  refine ⟨?_, ?_, ?_, ?_, ?_, ?_⟩
  · rw [calls_since_of_trace (c := byte_calls v) (by simp [write_byte_eq])]
    simp only [hb]
    rfl
  · intro b; rw [hb]; rfl
  · simp [write_byte_eq]
  · simp [write_byte_eq]
  · simp [write_byte_eq]
  · simp [write_byte_eq]

/-- C4: for every 7-bit device address `a` (0..127) the first byte `write`
transmits is `2 * a`: the seven address bits, most significant first, then the
direction bit 0.  Scenario: `write (0x50, [0xAA, 0x55], 2)` against a device
that acknowledges every byte returns true and its calls are exactly `lock`,
start, bits 10100000, ack sample, bits 10101010, ack sample, bits 01010101,
ack sample, stop, `unlock`. -/
theorem write_address_byte (dev : Device) (a : Nat) (h : a < 128) (buf : Nat → Nat)
    (n : Nat) (s : Bus) :
    char_of_int ((a : Int) * 2) = 2 * a
      ∧ calls_since s (write dev (a : Int) buf (n : Int) s).2 =
          [Call.lock] ++ start_calls ++ byte_calls (2 * a)
            ++ (payload buf n).flatMap byte_calls ++ stop_calls ++ [Call.unlock]
      ∧ msb_bits (2 * a) =
          [a.testBit 6, a.testBit 5, a.testBit 4, a.testBit 3,
           a.testBit 2, a.testBit 1, a.testBit 0, false]
      ∧ (write (fun _ => false) 0x50 (fun i => [0xAA, 0x55].getD i 0) 2 s).1 = true
      ∧ calls_since s (write (fun _ => false) 0x50 (fun i => [0xAA, 0x55].getD i 0) 2 s).2 =
          [Call.lock] ++ start_calls
            ++ [true, false, true, false, false, false, false, false].flatMap bit_calls
            ++ ack_calls
            ++ [true, false, true, false, true, false, true, false].flatMap bit_calls
            ++ ack_calls
            ++ [false, true, false, true, false, true, false, true].flatMap bit_calls
            ++ ack_calls
            ++ stop_calls ++ [Call.unlock] := by
  have hc : char_of_int ((a : Int) * 2) = 2 * a := by
    unfold char_of_int
    omega
  refine ⟨hc, ?_, ?_, ?_, ?_⟩
  · apply calls_since_of_trace
    simp [write_eq, hc]
  · have h2 : ∀ i, (2 * a).testBit (i + 1) = a.testBit i := by
      intro i
      rw [Nat.testBit_succ, Nat.mul_div_cancel_left a (by decide : 0 < 2)]
    simp [msb_bits, h2]
  · simp [write_eq]
  · rw [calls_since_of_trace (c := transaction_calls
      (sent_bytes 0x50 (fun i => [0xAA, 0x55].getD i 0) 2)) (by rw [write_eq]; rfl)]
    decide

/-- Witness for C4 at address 0x50 with the payload of the scenario, entered
from the idle bus. -/
theorem write_address_byte_witness :
    (0x50 < 128)
      ∧ char_of_int (((0x50 : Nat) : Int) * 2) = 2 * 0x50
      ∧ calls_since ⟨true, true, 0, []⟩
          (write (fun _ => false) ((0x50 : Nat) : Int) (fun i => [0xAA, 0x55].getD i 0)
            ((2 : Nat) : Int) ⟨true, true, 0, []⟩).2 =
          [Call.lock] ++ start_calls ++ byte_calls (2 * 0x50)
            ++ (payload (fun i => [0xAA, 0x55].getD i 0) 2).flatMap byte_calls
            ++ stop_calls ++ [Call.unlock] :=
  ⟨by decide,
   (write_address_byte (fun _ => false) 0x50 (by decide) (fun i => [0xAA, 0x55].getD i 0) 2
      ⟨true, true, 0, []⟩).1,
   (write_address_byte (fun _ => false) 0x50 (by decide) (fun i => [0xAA, 0x55].getD i 0) 2
      ⟨true, true, 0, []⟩).2.1⟩

/-- C5: the calls `write` makes do not depend on the acknowledge answers: for
every address, buffer and length, any two devices lead to the same call
sequence and the same final line levels.  In particular, when some byte `k` of
the `1 + n` is not acknowledged (its sample is high), `write` returns false
and its calls are still those of the complete transaction, every byte after
`k` included. -/
theorem write_calls_independent_of_acks (dev1 dev2 : Device) (addr : Int) (buf : Nat → Nat)
    (nbytes : Int) (s : Bus) :
    (write dev1 addr buf nbytes s).2 = (write dev2 addr buf nbytes s).2
      ∧ ∀ k, k < 1 + nbytes.toNat → dev1 (s.reads + k) = true →
          (write dev1 addr buf nbytes s).1 = false
            ∧ calls_since s (write dev1 addr buf nbytes s).2 =
                [Call.lock] ++ start_calls
                  ++ (sent_bytes addr buf nbytes.toNat).flatMap byte_calls
                  ++ stop_calls ++ [Call.unlock] := by
  refine ⟨by simp [write_eq], ?_⟩
  intro k hk hd
  refine ⟨?_, calls_since_of_trace (by simp [write_eq, sent_bytes])⟩
  rw [write_eq]
  apply Bool.eq_false_iff.mpr
  intro hall
  have := (List.all_eq_true.mp hall) k (List.mem_range.mpr hk)
  simp [hd] at this

/-- Witness for C5: the scenario of C4 with the second payload byte (byte 2 of
the 3) not acknowledged. -/
theorem write_calls_independent_of_acks_witness :
    (write (fun k => decide (k = 2)) 0x50 (fun i => [0xAA, 0x55].getD i 0) 2
        ⟨true, true, 0, []⟩).1 = false
      ∧ calls_since ⟨true, true, 0, []⟩
          (write (fun k => decide (k = 2)) 0x50 (fun i => [0xAA, 0x55].getD i 0) 2
            ⟨true, true, 0, []⟩).2 =
          [Call.lock] ++ start_calls
            ++ (sent_bytes 0x50 (fun i => [0xAA, 0x55].getD i 0) (2 : Int).toNat).flatMap
                byte_calls
            ++ stop_calls ++ [Call.unlock] :=
  (write_calls_independent_of_acks (fun k => decide (k = 2)) (fun _ => false) 0x50
    (fun i => [0xAA, 0x55].getD i 0) 2 ⟨true, true, 0, []⟩).2 2 (by decide) (by decide)

/-! ## Claims about the bus conditions, single bits and bus ownership -/

/-- C6: `start ()` makes exactly the calls data:=1, clock:=1, data:=0,
clock:=0.  So from every entry line state the line levels just before the
third call are clock = 1, data = 1 and just after it clock = 1, data = 0 (the
data line falls while the clock is high), and `start ()` exits with clock = 0
and data = 0. -/
theorem start_contract (s : Bus) :
    calls_since s (start s) =
        [Call.set_sda true, Call.set_scl true, Call.set_sda false, Call.set_scl false]
      ∧ start s = set_scl false (set_sda false (set_scl true (set_sda true s)))
      ∧ ((set_scl true (set_sda true s)).scl = true ∧ (set_scl true (set_sda true s)).sda = true)
      ∧ ((set_sda false (set_scl true (set_sda true s))).scl = true
          ∧ (set_sda false (set_scl true (set_sda true s))).sda = false)
      ∧ (start s).scl = false
      ∧ (start s).sda = false := by
  refine ⟨calls_since_of_trace (by simp [start_eq, start_calls]), rfl, ?_, ?_, ?_, ?_⟩ <;>
    simp [start, set_scl, set_sda]

/-- C7: `stop ()` makes exactly the calls clock:=0, data:=0, clock:=1,
data:=1.  So from every entry line state the line levels just before the
fourth call are clock = 1, data = 0 and just after it clock = 1, data = 1 (the
data line rises while the clock is high), and `stop ()` exits idle.  Calling
`stop ()` twice in a row leaves the bus idle after the first and after the
second call, with the same line levels. -/
theorem stop_contract (s : Bus) :
    calls_since s (stop s) =
        [Call.set_scl false, Call.set_sda false, Call.set_scl true, Call.set_sda true]
      ∧ stop s = set_sda true (set_scl true (set_sda false (set_scl false s)))
      ∧ ((set_scl true (set_sda false (set_scl false s))).scl = true
          ∧ (set_scl true (set_sda false (set_scl false s))).sda = false)
      ∧ (stop s).idle
      ∧ (stop (stop s)).idle
      ∧ (stop (stop s)).scl = (stop s).scl
      ∧ (stop (stop s)).sda = (stop s).sda := by
  refine ⟨calls_since_of_trace (by simp [stop_eq, stop_calls]), rfl, ?_, ?_, ?_, ?_, ?_⟩ <;>
    simp [stop, set_scl, set_sda, Bus.idle]

/-- C8: for every bit value `b` and every entry state with clock = 0,
`write_bit (b)` makes exactly the calls data:=b, clock:=1, clock:=0: the data
line takes the value `b` while the clock is still low, the clock then goes
high and low once with the data line holding `b` throughout, and `write_bit`
exits with clock = 0 and data = `b`. -/
theorem write_bit_contract (b : Bool) (s : Bus) (h : s.scl = false) :
    calls_since s (write_bit b s) = [Call.set_sda b, Call.set_scl true, Call.set_scl false]
      ∧ write_bit b s = set_scl false (set_scl true (set_sda b s))
      ∧ ((set_sda b s).scl = false ∧ (set_sda b s).sda = b)
      ∧ ((set_scl true (set_sda b s)).scl = true ∧ (set_scl true (set_sda b s)).sda = b)
      ∧ (write_bit b s).scl = false
      ∧ (write_bit b s).sda = b := by
  refine ⟨calls_since_of_trace (by simp [write_bit_eq, bit_calls]), rfl, ?_, ?_, ?_, ?_⟩ <;>
    simp [write_bit, set_scl, set_sda, h]

/-- Witness for C8: bit 1 written from clock = 0, data = 0. -/
theorem write_bit_contract_witness :
    (⟨false, false, 0, []⟩ : Bus).scl = false
      ∧ calls_since ⟨false, false, 0, []⟩ (write_bit true ⟨false, false, 0, []⟩) =
          [Call.set_sda true, Call.set_scl true, Call.set_scl false]
      ∧ (write_bit true ⟨false, false, 0, []⟩).scl = false
      ∧ (write_bit true ⟨false, false, 0, []⟩).sda = true :=
  ⟨rfl, (write_bit_contract true ⟨false, false, 0, []⟩ rfl).1,
    (write_bit_contract true ⟨false, false, 0, []⟩ rfl).2.2.2.2.1,
    (write_bit_contract true ⟨false, false, 0, []⟩ rfl).2.2.2.2.2⟩

/-- C9: the idle line state (clock = 1, data = 1) is an invariant of the public
operations: the constructor establishes it from every initial line state, and
every `write` (any address, buffer, length, device) and every `read` entered
in the idle state ends in the idle state. -/
theorem idle_invariant (dev : Device) (addr : Int) (buf : Nat → Nat) (nbytes : Int)
    (s : Bus) :
    (i2c s).idle
      ∧ (s.idle → (write dev addr buf nbytes s).2.idle)
      ∧ (s.idle → (read dev addr buf nbytes s).2.2.idle) := by
  refine ⟨?_, ?_, ?_⟩
  · simp [i2c, lock, unlock, stop_eq, Bus.idle]
  · intro _; simp [write_eq, Bus.idle]
  · intro hs; simpa [read, lock, unlock, Bus.idle] using hs

/-- Witness for C9: the scenario write and a read, both entered from the idle
bus. -/
theorem idle_invariant_witness :
    (⟨true, true, 0, []⟩ : Bus).idle
      ∧ (write (fun _ => false) 0x50 (fun i => [0xAA, 0x55].getD i 0) 2
          ⟨true, true, 0, []⟩).2.idle
      ∧ (read (fun _ => false) 0x50 (fun i => [0xAA, 0x55].getD i 0) 2
          ⟨true, true, 0, []⟩).2.2.idle :=
  ⟨by decide,
   (idle_invariant (fun _ => false) 0x50 (fun i => [0xAA, 0x55].getD i 0) 2
      ⟨true, true, 0, []⟩).2.1 (by decide),
   (idle_invariant (fun _ => false) 0x50 (fun i => [0xAA, 0x55].getD i 0) 2
      ⟨true, true, 0, []⟩).2.2 (by decide)⟩

/-- C10: bus ownership brackets every public operation: the calls of the
constructor, of `write` and of `read` each open with `lock`, close with
`unlock`, hold `lock` and `unlock` exactly once, have only line primitives
strictly between the two (in `write` the whole start ... stop sequence, in
the constructor the stop condition, in `read` nothing), and never use a line
while the bus is not owned; ownership is released when the operation
returns. -/
theorem operations_bracketed_by_lock (dev : Device) (addr : Int) (buf : Nat → Nat)
    (nbytes : Int) (s : Bus) :
    bracketed (calls_since s (i2c s))
      ∧ calls_since s (i2c s) = Call.lock :: (stop_calls ++ [Call.unlock])
      ∧ bracketed (calls_since s (write dev addr buf nbytes s).2)
      ∧ calls_since s (write dev addr buf nbytes s).2 =
          Call.lock :: ((start_calls ++ (sent_bytes addr buf nbytes.toNat).flatMap byte_calls
            ++ stop_calls) ++ [Call.unlock])
      ∧ bracketed (calls_since s (read dev addr buf nbytes s).2.2)
      ∧ calls_since s (read dev addr buf nbytes s).2.2 = [Call.lock, Call.unlock] := by
  have h1 : calls_since s (i2c s) = Call.lock :: (stop_calls ++ [Call.unlock]) :=
    calls_since_of_trace (by simp [i2c, lock, unlock, stop_eq])
  have h2 : calls_since s (write dev addr buf nbytes s).2 =
      Call.lock :: ((start_calls ++ (sent_bytes addr buf nbytes.toNat).flatMap byte_calls
        ++ stop_calls) ++ [Call.unlock]) :=
    calls_since_of_trace (by simp [write_eq, sent_bytes])
  have h3 : calls_since s (read dev addr buf nbytes s).2.2 = Call.lock :: ([] ++ [Call.unlock]) :=
    calls_since_of_trace (by simp [read, lock, unlock])
  refine ⟨?_, h1, ?_, h2, ?_, h3⟩
  · rw [h1]; exact bracketed_of_lines _ is_line_stop_calls
  · rw [h2]
    apply bracketed_of_lines
    intro c hc
    simp only [List.mem_append, List.mem_flatMap] at hc
    rcases hc with (hc | ⟨v, -, hc⟩) | hc
    · exact is_line_start_calls c hc
    · exact is_line_byte_calls v c hc
    · exact is_line_stop_calls c hc
  · rw [h3]; exact bracketed_of_lines [] (by simp)

/-! ## Claims about `read`, the address byte and the line discipline of `write` -/

/-- C11: `read` is a stub: for every address, buffer and `max_bytes` it returns
0, its only calls are one `lock` followed by one `unlock` (no `set_scl`,
`set_sda` or `get_sda`), it takes no sample and drives no line, and the
buffer of the caller is unchanged. -/
theorem read_is_stub (dev : Device) (addr : Int) (buf : Nat → Nat) (max_bytes : Int)
    (s : Bus) :
    (read dev addr buf max_bytes s).1 = 0
      ∧ calls_since s (read dev addr buf max_bytes s).2.2 = [Call.lock, Call.unlock]
      ∧ (∀ c ∈ calls_since s (read dev addr buf max_bytes s).2.2, c.is_line = false)
      ∧ (read dev addr buf max_bytes s).2.1 = buf
      ∧ (read dev addr buf max_bytes s).2.2.scl = s.scl
      ∧ (read dev addr buf max_bytes s).2.2.sda = s.sda
      ∧ (read dev addr buf max_bytes s).2.2.reads = s.reads := by
  have h : calls_since s (read dev addr buf max_bytes s).2.2 = [Call.lock, Call.unlock] :=
    calls_since_of_trace (by simp [read, lock, unlock])
  refine ⟨rfl, h, ?_, rfl, rfl, rfl, rfl⟩
  rw [h]
  decide

/-- C12: no bit outside the low 8 bits of a byte value is examined:
`write_byte` does the same for `v` and for `v mod 256`, and the address byte
`write` transmits is `(addr << 1) mod 256`, twice the low 7 bits of `addr`.  So
two addresses that agree in their low 7 bits give, with the same buffer,
length and device, the same result, the same calls and the same final bus. -/
theorem write_examines_low_seven_address_bits (dev : Device) (addr1 addr2 : Int)
    (buf : Nat → Nat) (nbytes : Int) (s : Bus) (h : addr1 % 128 = addr2 % 128) :
    write dev addr1 buf nbytes s = write dev addr2 buf nbytes s
      ∧ char_of_int (addr1 * 2) = 2 * (addr1 % 128).toNat
      ∧ calls_since s (write dev addr1 buf nbytes s).2 =
          [Call.lock] ++ start_calls
            ++ (2 * (addr1 % 128).toNat :: payload buf nbytes.toNat).flatMap byte_calls
            ++ stop_calls ++ [Call.unlock]
      ∧ (∀ (v : Nat) (s1 : Bus), write_byte dev v s1 = write_byte dev (v % 256) s1) := by
  have hc : ∀ a : Int, char_of_int (a * 2) = 2 * (a % 128).toNat := by
    intro a; unfold char_of_int; omega
  refine ⟨?_, hc addr1, ?_, ?_⟩
  · rw [write_eq, write_eq, hc, hc, h]
  · exact calls_since_of_trace (by simp [write_eq, hc])
  · intro v s1
    have hbit : ∀ i, i < 8 → (v % 256).testBit i = v.testBit i := by
      intro i hi
      have e : (256 : Nat) = 2 ^ 8 := by norm_num
      rw [e, Nat.testBit_mod_two_pow]
      simp [hi]
    have hb : msb_bits (v % 256) = msb_bits v := by
      unfold msb_bits
      rw [hbit 7 (by omega), hbit 6 (by omega), hbit 5 (by omega), hbit 4 (by omega),
        hbit 3 (by omega), hbit 2 (by omega), hbit 1 (by omega), hbit 0 (by omega)]
    rw [write_byte_eq, write_byte_eq, byte_calls, byte_calls, hb]

/-- Witness for C12: the addresses 0x50 and 0xD0 differ only in bit 7. -/
theorem write_examines_low_seven_address_bits_witness :
    (0x50 : Int) % 128 = 0xD0 % 128
      ∧ write (fun _ => false) 0x50 (fun i => [0xAA, 0x55].getD i 0) 2 ⟨true, true, 0, []⟩
          = write (fun _ => false) 0xD0 (fun i => [0xAA, 0x55].getD i 0) 2 ⟨true, true, 0, []⟩ :=
  ⟨by decide,
   (write_examines_low_seven_address_bits (fun _ => false) 0x50 0xD0
      (fun i => [0xAA, 0x55].getD i 0) 2 ⟨true, true, 0, []⟩ (by decide)).1⟩

/-- C15 as stated fails: in `write (0, buf, 0)` entered from the idle state the
clock goes high 10 times between the fall and the rise of the data line made
while the clock is high, not 9 * (1 + 0) = 9 times. -/
theorem write_clock_rises_between_conditions_not_nine :
    ¬ conditions_only_at_ends
        (edges true true
          (calls_since ⟨true, true, 0, []⟩
            (write (fun _ => false) 0 (fun _ => 0) 0 ⟨true, true, 0, []⟩).2))
        (9 * (1 + 0)) := by
  rintro ⟨mid, h, -, -, hc⟩
  have hm : mid = (edges true true
      (calls_since ⟨true, true, 0, []⟩
        (write (fun _ => false) 0 (fun _ => 0) 0 ⟨true, true, 0, []⟩).2)).tail.dropLast := by
    rw [h]; simp
  rw [hm] at hc
  exact absurd hc (by decide)

/-- C15 (amended): for every address, buffer, length `n >= 0` and device, in
`write` entered from the idle state the data line changes level while the
clock is high exactly twice: it falls as the first level change of the
transaction (the start condition) and rises as the last one (the stop
condition).  Every other change of the data line happens while the clock is
low, and the clock goes high exactly 9 * (1 + n) + 1 times between the two:
nine times for each byte and once in the stop condition. -/
theorem write_data_stable_while_clock_high (dev : Device) (addr : Int) (buf : Nat → Nat)
    (n : Nat) (s : Bus) (h : s.idle) :
    conditions_only_at_ends
      (edges s.scl s.sda (calls_since s (write dev addr buf (n : Int) s).2))
      (9 * (1 + n) + 1) := by
  have hc : calls_since s (write dev addr buf (n : Int) s).2 =
      transaction_calls (sent_bytes addr buf n) :=
    calls_since_of_trace (by simp [write_eq, transaction_calls, sent_bytes])
  have hl : (sent_bytes addr buf n).length = 1 + n := by
    simp [sent_bytes, payload, Nat.add_comm]
  rw [hc, h.1, h.2, ← hl]
  exact write_edges _ (by simp [sent_bytes])

/-- Witness for C15 (amended): the scenario write entered from the idle bus,
with 9 * 3 + 1 = 28 clock rises between the two conditions. -/
theorem write_data_stable_while_clock_high_witness :
    (⟨true, true, 0, []⟩ : Bus).idle
      ∧ conditions_only_at_ends
          (edges true true
            (calls_since ⟨true, true, 0, []⟩
              (write (fun _ => false) 0x50 (fun i => [0xAA, 0x55].getD i 0) ((2 : Nat) : Int)
                ⟨true, true, 0, []⟩).2))
          (9 * (1 + 2) + 1) :=
  ⟨by decide,
   write_data_stable_while_clock_high (fun _ => false) 0x50 (fun i => [0xAA, 0x55].getD i 0) 2
     ⟨true, true, 0, []⟩ (by decide)⟩

/-- C16: for every length `nbytes <= 0` the result and the final bus of
`write` are the same for every buffer (the buffer is never read), the calls
are `lock`, start, the transmission of the address byte alone, stop, `unlock`,
and the result is the acknowledge outcome of the address byte. -/
theorem write_nonpositive_length (dev : Device) (addr : Int) (buf : Nat → Nat)
    (nbytes : Int) (s : Bus) (h : nbytes ≤ 0) :
    (∀ buf2 : Nat → Nat, write dev addr buf2 nbytes s = write dev addr buf nbytes s)
      ∧ calls_since s (write dev addr buf nbytes s).2 =
          [Call.lock] ++ start_calls ++ byte_calls (char_of_int (addr * 2))
            ++ stop_calls ++ [Call.unlock]
      ∧ (write dev addr buf nbytes s).1 = (write_byte dev (char_of_int (addr * 2)) (start (lock s))).1
      ∧ ((write dev addr buf nbytes s).1 = true ↔ dev s.reads = false)
      ∧ (write dev addr buf nbytes s).2.reads = s.reads + 1 := by
  have h0 : nbytes.toNat = 0 := by omega
  refine ⟨?_, ?_, ?_, ?_, ?_⟩
  · intro buf2; simp [write_eq, h0, payload]
  · exact calls_since_of_trace (by simp [write_eq, h0, payload])
  · simp [write_eq, h0, write_byte_eq, start_eq, lock, List.range_succ]
  · simp [write_eq, h0]
  · simp [write_eq, h0]

/-- Witness for C16: length -3 with the address byte not acknowledged. -/
theorem write_nonpositive_length_witness :
    ((-3 : Int) ≤ 0)
      ∧ calls_since ⟨true, true, 0, []⟩
          (write (fun _ => true) 0x50 (fun _ => 0xFF) (-3) ⟨true, true, 0, []⟩).2 =
          [Call.lock] ++ start_calls ++ byte_calls (char_of_int (0x50 * 2))
            ++ stop_calls ++ [Call.unlock]
      ∧ ((write (fun _ => true) 0x50 (fun _ => 0xFF) (-3) ⟨true, true, 0, []⟩).1 = true
          ↔ (fun _ => true) (⟨true, true, 0, []⟩ : Bus).reads = false) :=
  ⟨by decide,
   (write_nonpositive_length (fun _ => true) 0x50 (fun _ => 0xFF) (-3) ⟨true, true, 0, []⟩
      (by decide)).2.1,
   (write_nonpositive_length (fun _ => true) 0x50 (fun _ => 0xFF) (-3) ⟨true, true, 0, []⟩
      (by decide)).2.2.2.1⟩

end I2c

namespace Prosistel

/-! ## Auxiliary lemmas for the transaction -/

theorem reply_buffer_idem (data : Buffer) : reply_buffer (reply_buffer data) = reply_buffer data := by
  cases data <;> rfl

theorem reply_size_idem (n : Nat) : reply_size (reply_size n) = reply_size n := by
  unfold reply_size BUFSZ
  split_ifs <;> simp_all

theorem attempts_calls_succ (cmdstr : Option (List Char)) (buf : Buffer) (rxmax nr nw : Nat) :
    attempts_calls cmdstr buf rxmax (nr + 1) (nw + 1) =
      attempt_calls cmdstr buf rxmax ++ attempts_calls cmdstr buf rxmax nr nw := by
  simp [attempts_calls, List.replicate_succ]

theorem attempts_calls_succ_zero (cmdstr : Option (List Char)) (buf : Buffer) (rxmax nr : Nat) :
    attempts_calls cmdstr buf rxmax (nr + 1) 0 =
      attempt_calls cmdstr buf rxmax ++ attempts_calls cmdstr buf rxmax nr 0 := by
  simp [attempts_calls, List.replicate_succ]

theorem transaction_write_succ_none (c : ErrCodes) (io : Serial) (retry : Int) (fuel : Nat)
    (rr : Int) (data : Buffer) (len : Nat) (p : Port) :
    transaction_write c io retry none (fuel + 1) rr data len p =
      if (io.read_string p.reads).1 < 0 then
        if rr < retry then
          transaction_write c io retry none fuel (rr + 1) (reply_buffer data) (reply_size len)
            { writes := p.writes, reads := p.reads + 1,
              trace := p.trace ++ attempt_calls none (reply_buffer data) (reply_size len) }
        else
          some ((io.read_string p.reads).1,
            { writes := p.writes, reads := p.reads + 1,
              trace := p.trace ++ attempt_calls none (reply_buffer data) (reply_size len) })
      else if (io.read_string p.reads).2.headD (Char.ofNat 0) = '?' then
        some (-c.RIG_EPROTO,
          { writes := p.writes, reads := p.reads + 1,
            trace := p.trace ++ attempt_calls none (reply_buffer data) (reply_size len) })
      else
        some (c.RIG_OK,
          { writes := p.writes, reads := p.reads + 1,
            trace := p.trace ++ attempt_calls none (reply_buffer data) (reply_size len) }) := by
  simp [transaction_write, serial_flush, read_string, attempt_calls, send_calls, reply_buffer,
    reply_size]

theorem transaction_write_succ_some (c : ErrCodes) (io : Serial) (retry : Int) (cmd : List Char)
    (fuel : Nat) (rr : Int) (data : Buffer) (len : Nat) (p : Port) :
    transaction_write c io retry (some cmd) (fuel + 1) rr data len p =
      if io.write_block p.writes ≠ c.RIG_OK then
        some (io.write_block p.writes,
          { writes := p.writes + 1, reads := p.reads,
            trace := p.trace ++ ([PortCall.serial_flush] ++ send_calls (some cmd)) })
      else if (io.read_string p.reads).1 < 0 then
        if rr < retry then
          transaction_write c io retry (some cmd) fuel (rr + 1) (reply_buffer data)
            (reply_size len)
            { writes := p.writes + 1, reads := p.reads + 1,
              trace := p.trace ++ attempt_calls (some cmd) (reply_buffer data) (reply_size len) }
        else
          some ((io.read_string p.reads).1,
            { writes := p.writes + 1, reads := p.reads + 1,
              trace := p.trace ++ attempt_calls (some cmd) (reply_buffer data) (reply_size len) })
      else if (io.read_string p.reads).2.headD (Char.ofNat 0) = '?' then
        some (-c.RIG_EPROTO,
          { writes := p.writes + 1, reads := p.reads + 1,
            trace := p.trace ++ attempt_calls (some cmd) (reply_buffer data) (reply_size len) })
      else
        some (c.RIG_OK,
          { writes := p.writes + 1, reads := p.reads + 1,
            trace := p.trace ++ attempt_calls (some cmd) (reply_buffer data) (reply_size len) }) := by
  simp [transaction_write, serial_flush, read_string, write_block, attempt_calls, send_calls,
    reply_buffer, reply_size]

theorem transaction_write_spec (c : ErrCodes) (io : Serial) (retry : Int)
    (cmdstr : Option (List Char)) :
    ∀ (fuel : Nat) (rr : Int) (data : Buffer) (len : Nat) (p : Port),
      (retry - rr).toNat < fuel →
      ∃ (rv : Int) (nr nw : Nat),
        transaction_write c io retry cmdstr fuel rr data len p =
          some (rv, { writes := p.writes + nw, reads := p.reads + nr,
                      trace := p.trace
                        ++ attempts_calls cmdstr (reply_buffer data) (reply_size len) nr nw })
        ∧ nr ≤ (retry - rr).toNat + 1
        ∧ nw ≤ (retry - rr).toNat + 1
        ∧ nw ≤ nr + 1
        ∧ (cmdstr = none → nw = 0)
        ∧ (cmdstr ≠ none → nr ≤ nw)
        ∧ (∀ k, k + 1 < nr → (io.read_string (p.reads + k)).1 < 0)
        ∧ (nr < nw → ∀ k, k < nr → (io.read_string (p.reads + k)).1 < 0)
        ∧ (∀ k, k < nr → cmdstr ≠ none → io.write_block (p.writes + k) = c.RIG_OK)
        ∧ ((nw = nr + 1 ∧ io.write_block (p.writes + nr) ≠ c.RIG_OK
              ∧ rv = io.write_block (p.writes + nr))
            ∨ (nw ≤ nr ∧ ∃ m, nr = m + 1 ∧
                (((io.read_string (p.reads + m)).1 < 0
                    ∧ rv = (io.read_string (p.reads + m)).1 ∧ m = (retry - rr).toNat)
                  ∨ (0 ≤ (io.read_string (p.reads + m)).1
                    ∧ (io.read_string (p.reads + m)).2.headD (Char.ofNat 0) = '?'
                    ∧ rv = -c.RIG_EPROTO)
                  ∨ (0 ≤ (io.read_string (p.reads + m)).1
                    ∧ (io.read_string (p.reads + m)).2.headD (Char.ofNat 0) ≠ '?'
                    ∧ rv = c.RIG_OK)))) := by
  intro fuel
  induction fuel with
  | zero => intro rr data len p h; omega
  | succ fuel ih =>
    intro rr data len p hfuel
    cases cmdstr with
    | none =>
      rw [transaction_write_succ_none]
      split_ifs with hneg hretry hq
      · obtain ⟨rv, nr, nw, heq, h1, h1b, h2, h3, h4, h5, h5b, h6, h7⟩ :=
          ih (rr + 1) (reply_buffer data) (reply_size len)
            { writes := p.writes, reads := p.reads + 1,
              trace := p.trace ++ attempt_calls none (reply_buffer data) (reply_size len) }
            (by omega)
        have hnw : nw = 0 := h3 rfl
        subst hnw
        simp only [reply_buffer_idem, reply_size_idem] at heq
        refine ⟨rv, nr + 1, 0, ?_, by omega, by omega, by omega, fun _ => rfl,
          fun h => absurd rfl h, ?_, fun h => by omega, ?_, ?_⟩
        · rw [heq]
          simp [attempts_calls_succ_zero, Nat.add_assoc, Nat.add_comm 1]
        · intro k hk
          rcases Nat.eq_zero_or_pos k with rfl | hpos
          · simpa using hneg
          · have := h5 (k - 1) (by omega)
            simpa [show p.reads + 1 + (k - 1) = p.reads + k by omega] using this
        · intro k _ h; exact absurd rfl h
        · right
          rcases h7 with ⟨h, -⟩ | ⟨-, m, hm, hcase⟩
          · omega
          · refine ⟨by omega, m + 1, by omega, ?_⟩
            have e : p.reads + 1 + m = p.reads + (m + 1) := by omega
            simp only [e] at hcase
            rcases hcase with ⟨a, b, d⟩ | ⟨a, b, d⟩ | ⟨a, b, d⟩
            · exact Or.inl ⟨a, b, by omega⟩
            · exact Or.inr (Or.inl ⟨a, b, d⟩)
            · exact Or.inr (Or.inr ⟨a, b, d⟩)
      · refine ⟨(io.read_string p.reads).1, 1, 0, ?_, by omega, by omega, by omega, fun _ => rfl,
          fun h => absurd rfl h, ?_, fun h => by omega, ?_, ?_⟩
        · simp [attempts_calls]
        · intro k hk; omega
        · intro k _ h; exact absurd rfl h
        · exact Or.inr ⟨by omega, 0, rfl, Or.inl ⟨by simpa using hneg, rfl, by omega⟩⟩
      · refine ⟨(-c.RIG_EPROTO), 1, 0, ?_, by omega, by omega, by omega, fun _ => rfl,
          fun h => absurd rfl h, ?_, fun h => by omega, ?_, ?_⟩
        · simp [attempts_calls]
        · intro k hk; omega
        · intro k _ h; exact absurd rfl h
        · exact Or.inr ⟨by omega, 0, rfl,
            Or.inr (Or.inl ⟨by simpa using hneg, by simpa using hq, rfl⟩)⟩
      · refine ⟨c.RIG_OK, 1, 0, ?_, by omega, by omega, by omega, fun _ => rfl,
          fun h => absurd rfl h, ?_, fun h => by omega, ?_, ?_⟩
        · simp [attempts_calls]
        · intro k hk; omega
        · intro k _ h; exact absurd rfl h
        · exact Or.inr ⟨by omega, 0, rfl,
            Or.inr (Or.inr ⟨by simpa using hneg, by simpa using hq, rfl⟩)⟩
    | some cmd =>
      rw [transaction_write_succ_some]
      have hs : (some cmd : Option (List Char)) ≠ none := by simp
      split_ifs with hw hneg hretry hq
      · refine ⟨(io.write_block p.writes), 0, 1, ?_, by omega, by omega, by omega, by simp, fun _ => by omega,
          ?_, fun _ k hk => by omega, ?_, ?_⟩
        · simp [attempts_calls]
        · intro k hk; omega
        · intro k hk; omega
        · exact Or.inl ⟨rfl, by simpa using hw, rfl⟩
      · obtain ⟨rv, nr, nw, heq, h1, h1b, h2, h3, h4, h5, h5b, h6, h7⟩ :=
          ih (rr + 1) (reply_buffer data) (reply_size len)
            { writes := p.writes + 1, reads := p.reads + 1,
              trace := p.trace ++ attempt_calls (some cmd) (reply_buffer data) (reply_size len) }
            (by omega)
        simp only [reply_buffer_idem, reply_size_idem] at heq
        have h4 := h4 hs
        refine ⟨rv, nr + 1, nw + 1, ?_, by omega, by omega, by omega, by simp,
          fun _ => by omega, ?_, ?_, ?_, ?_⟩
        · rw [heq]
          simp [attempts_calls_succ, Nat.add_assoc, Nat.add_comm 1]
        · intro k hk
          rcases Nat.eq_zero_or_pos k with rfl | hpos
          · simpa using hneg
          · have := h5 (k - 1) (by omega)
            simpa [show p.reads + 1 + (k - 1) = p.reads + k by omega] using this
        · intro hlt k hk
          rcases Nat.eq_zero_or_pos k with rfl | hpos
          · simpa using hneg
          · have := h5b (by omega) (k - 1) (by omega)
            simpa [show p.reads + 1 + (k - 1) = p.reads + k by omega] using this
        · intro k hk _
          rcases Nat.eq_zero_or_pos k with rfl | hpos
          · simpa using hw
          · have := h6 (k - 1) (by omega) hs
            simpa [show p.writes + 1 + (k - 1) = p.writes + k by omega] using this
        · have e : p.reads + 1 + nr = p.reads + (nr + 1) := by omega
          have e2 : p.writes + 1 + nr = p.writes + (nr + 1) := by omega
          rcases h7 with ⟨a, b, d⟩ | ⟨a, m, hm, hcase⟩
          · left
            simp only [e2] at b d
            exact ⟨by omega, b, d⟩
          · right
            refine ⟨by omega, m + 1, by omega, ?_⟩
            have e3 : p.reads + 1 + m = p.reads + (m + 1) := by omega
            simp only [e3] at hcase
            rcases hcase with ⟨a, b, d⟩ | ⟨a, b, d⟩ | ⟨a, b, d⟩
            · exact Or.inl ⟨a, b, by omega⟩
            · exact Or.inr (Or.inl ⟨a, b, d⟩)
            · exact Or.inr (Or.inr ⟨a, b, d⟩)
      · have hw0 : io.write_block p.writes = c.RIG_OK := by simpa using hw
        refine ⟨(io.read_string p.reads).1, 1, 1, ?_, by omega, by omega, by omega, by simp, fun _ => by omega,
          ?_, fun h => by omega, ?_, ?_⟩
        · simp [attempts_calls]
        · intro k hk; omega
        · intro k hk _
          have : k = 0 := by omega
          subst this; simpa using hw0
        · exact Or.inr ⟨by omega, 0, rfl, Or.inl ⟨by simpa using hneg, rfl, by omega⟩⟩
      · have hw0 : io.write_block p.writes = c.RIG_OK := by simpa using hw
        refine ⟨(-c.RIG_EPROTO), 1, 1, ?_, by omega, by omega, by omega, by simp, fun _ => by omega,
          ?_, fun h => by omega, ?_, ?_⟩
        · simp [attempts_calls]
        · intro k hk; omega
        · intro k hk _
          have : k = 0 := by omega
          subst this; simpa using hw0
        · exact Or.inr ⟨by omega, 0, rfl,
            Or.inr (Or.inl ⟨by simpa using hneg, by simpa using hq, rfl⟩)⟩
      · have hw0 : io.write_block p.writes = c.RIG_OK := by simpa using hw
        refine ⟨c.RIG_OK, 1, 1, ?_, by omega, by omega, by omega, by simp, fun _ => by omega,
          ?_, fun h => by omega, ?_, ?_⟩
        · simp [attempts_calls]
        · intro k hk; omega
        · intro k hk _
          have : k = 0 := by omega
          subst this; simpa using hw0
        · exact Or.inr ⟨by omega, 0, rfl,
            Or.inr (Or.inr ⟨by simpa using hneg, by simpa using hq, rfl⟩)⟩

theorem port_calls_since_of_trace {p0 p1 : Port} {c : List PortCall}
    (h : p1.trace = p0.trace ++ c) : port_calls_since p0 p1 = c := by
  simp [port_calls_since, h]

/-! ## Claims about `prosistel_transaction` -/

/-- C13 (what the code does where the doc comment promises RIG_REJECTED): when
the first `j` attempts are retried (command written, reply read failed), `j`
is within the retry setting, and in the next attempt the command is written
successfully, the reply is read successfully and its first character is '?',
`prosistel_transaction` returns `-RIG_EPROTO` after `j + 1` reads; that is
`-RIG_REJECTED` only if the two codes are equal. -/
theorem transaction_invalid_command_returns_eproto (c : ErrCodes) (io : Serial) (retry : Int)
    (cmd : List Char) (data : Buffer) (data_len fuel j : Nat) (p : Port)
    (hfuel : retry.toNat < fuel) (hj : (j : Int) ≤ retry)
    (hfail : ∀ k, k < j →
      io.write_block (p.writes + k) = c.RIG_OK ∧ (io.read_string (p.reads + k)).1 < 0)
    (hw : io.write_block (p.writes + j) = c.RIG_OK)
    (hr : 0 ≤ (io.read_string (p.reads + j)).1)
    (hq : (io.read_string (p.reads + j)).2.headD (Char.ofNat 0) = '?') :
    prosistel_transaction c io retry (some cmd) data data_len fuel p =
        some (-c.RIG_EPROTO,
          { writes := p.writes + (j + 1), reads := p.reads + (j + 1),
            trace := p.trace
              ++ attempts_calls (some cmd) (reply_buffer data) (reply_size data_len)
                  (j + 1) (j + 1) })
      ∧ (-c.RIG_EPROTO = -c.RIG_REJECTED ↔ c.RIG_EPROTO = c.RIG_REJECTED) := by
  refine ⟨?_, by omega⟩
  obtain ⟨rv, nr, nw, heq, h1, h1b, h2, h3, h4, h5, h5b, h6, h7⟩ :=
    transaction_write_spec c io retry (some cmd) fuel 0 data data_len p (by simpa using hfuel)
  have h4 := h4 (by simp)
  have key : nr = j + 1 ∧ nw = j + 1 ∧ rv = -c.RIG_EPROTO := by
    rcases h7 with ⟨a, b, d⟩ | ⟨a, m, hm, hcase⟩
    · exfalso
      rcases Nat.lt_trichotomy nr j with hlt | heqj | hgt
      · exact b (hfail nr hlt).1
      · subst heqj; exact b hw
      · have := h5b (by omega) j hgt
        omega
    · have hmj : m = j := by
        rcases Nat.lt_trichotomy m j with hlt | heqj | hgt
        · exfalso
          have hf := (hfail m hlt).2
          rcases hcase with ⟨_, _, d⟩ | ⟨a, _, _⟩ | ⟨a, _, _⟩
          · simp only [sub_zero] at d; omega
          · omega
          · omega
        · exact heqj
        · exfalso
          have := h5 j (by omega)
          omega
      subst hmj
      rcases hcase with ⟨a, _, _⟩ | ⟨_, _, d⟩ | ⟨_, b, _⟩
      · omega
      · exact ⟨hm, by omega, d⟩
      · exact absurd hq b
  obtain ⟨rfl, rfl, rfl⟩ := key
  exact heq

/-- Witness for C13 at the codes of hamlib's header (`RIG_OK` = 0, `RIG_EPROTO`
= 8, command rejected = 9): the rotator answers the first attempt with a reply
starting with '?', and the function returns -8, not -9. -/
theorem transaction_invalid_command_returns_eproto_witness :
    prosistel_transaction ⟨0, 8, 9⟩ ⟨fun _ => 0, fun _ => (1, ['?'])⟩ 3
        (some [Char.ofNat 2, 'A', '?']) Buffer.null 0 4 ⟨0, 0, []⟩ =
      some (-8,
        { writes := 1, reads := 1,
          trace := [PortCall.serial_flush, PortCall.write_block [Char.ofNat 2, 'A', '?'] 3,
                    PortCall.read_string Buffer.replybuf 64] })
      ∧ (-8 : Int) ≠ -9 :=
  ⟨(transaction_invalid_command_returns_eproto ⟨0, 8, 9⟩ ⟨fun _ => 0, fun _ => (1, ['?'])⟩ 3
      [Char.ofNat 2, 'A', '?'] Buffer.null 0 4 0 ⟨0, 0, []⟩ (by decide) (by decide)
      (fun k hk => absurd hk (Nat.not_lt_zero k)) rfl (by decide) rfl).1,
   by decide⟩

/-- C14: the reply is always read, also when the caller passes `data = NULL`.
Provided `RIG_OK` is 0 and `RIG_EPROTO` is not, `prosistel_transaction`
returns, and returns `RIG_OK` only if at least one `read_string` call was made,
the last one returned a non-negative value with a reply that does not begin
with '?', and (when a command is given) every `write_block` call returned
`RIG_OK`.  Every read goes to `replybuf` when `data` is `NULL` and gets the
size `BUFSZ` = 64 when `data_len` is 0; a read is made whenever there is no
command or the first write succeeds. -/
theorem transaction_ok_only_after_good_reply (c : ErrCodes) (io : Serial) (retry : Int)
    (cmdstr : Option (List Char)) (data : Buffer) (data_len fuel : Nat) (p : Port)
    (hok : c.RIG_OK = 0) (hproto : c.RIG_EPROTO ≠ 0) (hfuel : retry.toNat < fuel) :
    ∃ (rv : Int) (nr nw : Nat),
      prosistel_transaction c io retry cmdstr data data_len fuel p =
          some (rv, { writes := p.writes + nw, reads := p.reads + nr,
                      trace := p.trace
                        ++ attempts_calls cmdstr (reply_buffer data) (reply_size data_len) nr nw })
        ∧ (rv = c.RIG_OK →
            1 ≤ nr
              ∧ 0 ≤ (io.read_string (p.reads + (nr - 1))).1
              ∧ (io.read_string (p.reads + (nr - 1))).2.headD (Char.ofNat 0) ≠ '?'
              ∧ (cmdstr ≠ none → nw = nr ∧ ∀ k, k < nw → io.write_block (p.writes + k) = c.RIG_OK))
        ∧ ((cmdstr = none ∨ io.write_block p.writes = c.RIG_OK) → 1 ≤ nr)
        ∧ reply_buffer Buffer.null = Buffer.replybuf
        ∧ reply_size 0 = 64 := by
  obtain ⟨rv, nr, nw, heq, h1, h1b, h2, h3, h4, h5, h5b, h6, h7⟩ :=
    transaction_write_spec c io retry cmdstr fuel 0 data data_len p (by simpa using hfuel)
  refine ⟨rv, nr, nw, heq, ?_, ?_, rfl, rfl⟩
  · intro hrv
    rcases h7 with ⟨a, b, d⟩ | ⟨a, m, hm, hcase⟩
    · exact absurd (d.symm.trans hrv) b
    · subst hm
      simp only [Nat.add_sub_cancel]
      rcases hcase with ⟨a1, b1, _⟩ | ⟨_, _, d1⟩ | ⟨a1, b1, _⟩
      · omega
      · omega
      · refine ⟨by omega, a1, b1, fun hc => ⟨?_, ?_⟩⟩
        · have := h4 hc; omega
        · intro k hk; exact h6 k (by have := h4 hc; omega) hc
  · intro hfirst
    rcases h7 with ⟨a, b, d⟩ | ⟨a, m, hm, hcase⟩
    · rcases hfirst with hnone | hw
      · have := h3 hnone; omega
      · rcases Nat.eq_zero_or_pos nr with h0 | hpos
        · subst h0; exact absurd hw b
        · exact hpos
    · omega

/-- Witness for C14: with `data = NULL`, `data_len = 0`, a first read that
fails and a second that brings a good reply, the function returns `RIG_OK`
after two attempts into `replybuf` with size 64. -/
theorem transaction_ok_only_after_good_reply_witness :
    prosistel_transaction ⟨0, 8, 9⟩
        ⟨fun _ => 0, fun k => if k = 0 then (-5, []) else (3, ['A', 'O', 'K'])⟩ 3
        (some ['A']) Buffer.null 0 4 ⟨0, 0, []⟩ =
      some (0,
        { writes := 2, reads := 2,
          trace := [PortCall.serial_flush, PortCall.write_block ['A'] 1,
                    PortCall.read_string Buffer.replybuf 64,
                    PortCall.serial_flush, PortCall.write_block ['A'] 1,
                    PortCall.read_string Buffer.replybuf 64] })
      ∧ ∃ (rv : Int) (nr nw : Nat),
          prosistel_transaction ⟨0, 8, 9⟩
              ⟨fun _ => 0, fun k => if k = 0 then (-5, []) else (3, ['A', 'O', 'K'])⟩ 3
              (some ['A']) Buffer.null 0 4 ⟨0, 0, []⟩ =
            some (rv, { writes := 0 + nw, reads := 0 + nr,
                        trace := [] ++ attempts_calls (some ['A']) (reply_buffer Buffer.null)
                          (reply_size 0) nr nw }) := by
  refine ⟨by decide, ?_⟩
  obtain ⟨rv, nr, nw, h, -⟩ :=
    transaction_ok_only_after_good_reply ⟨0, 8, 9⟩
      ⟨fun _ => 0, fun k => if k = 0 then (-5, []) else (3, ['A', 'O', 'K'])⟩ 3
      (some ['A']) Buffer.null 0 4 ⟨0, 0, []⟩ rfl (by decide) (by decide)
  exact ⟨rv, nr, nw, h⟩

/-- C17: for every retry setting `r >= 0` and every behaviour of the serial
port, `prosistel_transaction` returns once it may take `r` jumps back to
`transaction_write`, after `nw <= r + 1` writes of the command and
`nr <= r + 1` reply reads, its calls being `nr` complete attempts (flush,
write, read) followed, when `nw = nr + 1`, by a flush and a write.  Write
number `k + 1` is made only after read number `k` failed; when all `r + 1`
reads fail (and the writes succeed) the result is the value of the last read;
when a write fails the result is its value and nothing is written or read
after it. -/
theorem transaction_bounded_attempts (c : ErrCodes) (io : Serial) (r : Nat)
    (cmdstr : Option (List Char)) (data : Buffer) (data_len fuel : Nat) (p : Port)
    (hfuel : r < fuel) :
    ∃ (rv : Int) (nr nw : Nat),
      prosistel_transaction c io (r : Int) cmdstr data data_len fuel p =
          some (rv, { writes := p.writes + nw, reads := p.reads + nr,
                      trace := p.trace
                        ++ attempts_calls cmdstr (reply_buffer data) (reply_size data_len) nr nw })
        ∧ nw ≤ r + 1
        ∧ nr ≤ r + 1
        ∧ nw ≤ nr + 1
        ∧ (∀ k, k + 1 < nw → k < nr ∧ (io.read_string (p.reads + k)).1 < 0)
        ∧ (∀ k, k + 1 < nr → (io.read_string (p.reads + k)).1 < 0)
        ∧ ((∀ k, k ≤ r → (io.read_string (p.reads + k)).1 < 0) →
            (cmdstr ≠ none → ∀ k, k ≤ r → io.write_block (p.writes + k) = c.RIG_OK) →
            nr = r + 1 ∧ rv = (io.read_string (p.reads + r)).1)
        ∧ (∀ k, k < nw → io.write_block (p.writes + k) ≠ c.RIG_OK →
            rv = io.write_block (p.writes + k) ∧ nw = k + 1 ∧ nr = k) := by
  obtain ⟨rv, nr, nw, heq, h1, h1b, h2, h3, h4, h5, h5b, h6, h7⟩ :=
    transaction_write_spec c io (r : Int) cmdstr fuel 0 data data_len p (by simpa using hfuel)
  simp only [sub_zero, Int.toNat_ofNat] at h1 h1b h7
  refine ⟨rv, nr, nw, heq, h1b, h1, h2, ?_, h5, ?_, ?_⟩
  · intro k hk
    rcases Nat.lt_or_ge nr nw with hlt | hge
    · exact ⟨by omega, h5b hlt k (by omega)⟩
    · exact ⟨by omega, h5 k (by omega)⟩
  · intro hreads hwrites
    rcases h7 with ⟨a, b, d⟩ | ⟨a, m, hm, hcase⟩
    · exfalso
      have hc : cmdstr ≠ none := fun hn => by have := h3 hn; omega
      exact b (hwrites hc nr (by omega))
    · rcases hcase with ⟨_, b1, d1⟩ | ⟨a1, _, _⟩ | ⟨a1, _, _⟩
      · subst d1; exact ⟨hm, b1⟩
      · have := hreads m (by omega); omega
      · have := hreads m (by omega); omega
  · intro k hk hne
    have hc : cmdstr ≠ none := fun hn => by have := h3 hn; omega
    have hknr : ¬ k < nr := fun hlt => hne (h6 k hlt hc)
    have hk2 : k = nr := by omega
    subst hk2
    rcases h7 with ⟨a, b, d⟩ | ⟨a, m, hm, hcase⟩
    · exact ⟨d, a, rfl⟩
    · omega

/-- Witness for C17 at the retry setting 3 of `prosistel_rot_caps`: every read
fails, so the command is written four times and the fourth read error is
returned. -/
theorem transaction_bounded_attempts_witness :
    prosistel_transaction ⟨0, 8, 9⟩ ⟨fun _ => 0, fun _ => (-5, [])⟩ ((3 : Nat) : Int)
        (some ['A']) Buffer.null 0 4 ⟨0, 0, []⟩ =
      some (-5,
        { writes := 4, reads := 4,
          trace := attempts_calls (some ['A']) Buffer.replybuf 64 4 4 })
      ∧ ∃ (rv : Int) (nr nw : Nat),
          prosistel_transaction ⟨0, 8, 9⟩ ⟨fun _ => 0, fun _ => (-5, [])⟩ ((3 : Nat) : Int)
              (some ['A']) Buffer.null 0 4 ⟨0, 0, []⟩ =
            some (rv, { writes := 0 + nw, reads := 0 + nr,
                        trace := [] ++ attempts_calls (some ['A']) (reply_buffer Buffer.null)
                          (reply_size 0) nr nw })
          ∧ nw ≤ 3 + 1 ∧ nr ≤ 3 + 1 := by
  refine ⟨by decide, ?_⟩
  obtain ⟨rv, nr, nw, h, h1, h2, -⟩ :=
    transaction_bounded_attempts ⟨0, 8, 9⟩ ⟨fun _ => 0, fun _ => (-5, [])⟩ 3
      (some ['A']) Buffer.null 0 4 ⟨0, 0, []⟩ (by decide)
  exact ⟨rv, nr, nw, h, h1, h2⟩

end Prosistel
